import Mathlib

/-!
Verification of the retrieval / RAG pipeline of the college-voice-agent
backend (`backend/app/services/rag.py`, `document_processor.py`,
`vector_store.py`, `conversation_memory.py`).

The Python code is shallowly embedded: Python `str` becomes `String`
(operated on through its character list), Python `float` score arithmetic
becomes `ℚ` (the claims under scrutiny are about exact algebraic structure,
not rounding), Python dicts become insertion-ordered association lists, and
the two external effects — the FAISS vector search and the Groq LLM call —
become explicit parameters (`semanticResults`, `llmResponse`), exactly the
values the surrounding Python consumes.
-/

/-! ## Python string primitives -/

/-- Python whitespace characters, as used by `str.split()` / `str.strip()`. -/
def pyWhitespace (c : Char) : Bool :=
  c == ' ' || c == '\t' || c == '\n' || c == '\x0d' || c == '\x0b' || c == '\x0c'

/-- Python `str.strip()` on a character list. -/
def pyStripList (l : List Char) : List Char :=
  ((l.dropWhile pyWhitespace).reverse.dropWhile pyWhitespace).reverse

/-- Python `str.strip()`. -/
def pyStrip (s : String) : String :=
  String.mk (pyStripList s.data)

/-- Python `str.lower()` (the texts involved are ASCII). -/
def pyLower (s : String) : String :=
  String.mk (s.data.map Char.toLower)

/-- Helper for `str.split()`: accumulate the current run of non-whitespace. -/
def pySplitAux : List Char → List Char → List String
  | [], cur => if cur.isEmpty then [] else [String.mk cur.reverse]
  | c :: cs, cur =>
    if pyWhitespace c then
      if cur.isEmpty then pySplitAux cs [] else String.mk cur.reverse :: pySplitAux cs []
    else pySplitAux cs (c :: cur)

/-- Python `str.split()` with no argument: split on whitespace runs, no empties. -/
def pySplitWS (s : String) : List String :=
  pySplitAux s.data []

/-- `query.lower().split()` — the tokenizer used by both indexing and retrieval. -/
def pyTokenize (s : String) : List String :=
  pySplitWS (pyLower s)

/-- Python slice `s[:n]` (by characters). -/
def pyTake (n : Nat) (s : String) : String :=
  String.mk (s.data.take n)

/-! ## Data model of `rag.py` -/

/-- A document dict as indexed by `HybridRetriever`: `doc['text']` is always
present; `doc.get('source')` and `doc.get('metadata', {}).get('filename')`
may be absent (`none`) or present. -/
structure PyDoc where
  text : String
  source : Option String
  metaFilename : Option String
deriving DecidableEq

/-- Python truthiness-based `a or b` for an optional string: `None` and `""`
both fall through to the alternative. -/
def orTruthy (a : Option String) (b : String) : String :=
  match a with
  | some s => if s == "" then b else s
  | none => b

/-- `result.get('document', {}).get('source') or
result.get('document', {}).get('metadata', {}).get('filename') or 'unknown'`
(rag.py line 212). -/
def docSource (d : PyDoc) : String :=
  orTruthy d.source (orTruthy d.metaFilename "unknown")

/-- One entry of `final_results` in `HybridRetriever.retrieve`. -/
structure RetrievalResult where
  document : PyDoc
  hybridScore : ℚ
  bm25Score : ℚ
  semanticScore : ℚ
deriving DecidableEq

/-! ## BM25 (rank_bm25.BM25Okapi) -/

/-- `k1` constant of `BM25Okapi` (default 1.5). -/
def bm25K1 : ℚ := 3 / 2

/-- `b` constant of `BM25Okapi` (default 0.75). -/
def bm25B : ℚ := 3 / 4

/-- The BM25 index state: the tokenized corpus, plus the IDF table.  The IDF
values are computed by `BM25Okapi._calc_idf` with real logarithms, so they are
kept abstract here as a function; `idf q` models `self.idf.get(q) or 0` (0 for
terms outside the corpus). -/
structure BM25Okapi where
  corpus : List (List String)
  idf : String → ℚ

/-- `self.avgdl`: total token count divided by corpus size. -/
def bm25Avgdl (corpus : List (List String)) : ℚ :=
  (corpus.map (fun d => (d.length : ℚ))).sum / (corpus.length : ℚ)

/-- The score `BM25Okapi.get_scores` assigns to one tokenized document:
`sum over query tokens q of idf(q) * (f * (k1+1)) / (f + k1 * (1 - b + b*dl/avgdl))`
where `f` is the frequency of `q` in the document. -/
def bm25DocScore (bm : BM25Okapi) (queryTokens : List String) (d : List String) : ℚ :=
  (queryTokens.map (fun q =>
    bm.idf q *
      (((d.count q : ℚ) * (bm25K1 + 1)) /
        ((d.count q : ℚ) +
          bm25K1 * (1 - bm25B + bm25B * (d.length : ℚ) / bm25Avgdl bm.corpus))))).sum

/-- `BM25Okapi.get_scores`: one score per corpus document, in corpus order. -/
def getScores (bm : BM25Okapi) (queryTokens : List String) : List ℚ :=
  bm.corpus.map (bm25DocScore bm queryTokens)

/-! ## HybridRetriever.retrieve -/

/-- The `semantic_score_map` built from `self.vector_store.search(query, k*2)`:
keyed by the first 50 characters of the text; later entries overwrite earlier
ones (Python dict insertion), hence the lookup of the last match. -/
def semanticScoreMap (semanticResults : List (PyDoc × ℚ)) (key : String) : Option ℚ :=
  (semanticResults.reverse.find? (fun p => pyTake 50 p.1.text == key)).map (fun p => p.2)

/-- `HybridRetriever._normalize_scores`: min-max normalization to [0,1]; a
constant vector maps to the constant 0.5.  (Defined because the spec claims it
participates in fusion; `retrieve` below never calls it, mirroring the code.) -/
def normalizeScores (scores : List ℚ) : List ℚ :=
  match scores with
  | [] => []
  | s :: rest =>
    let mn := rest.foldl min s
    let mx := rest.foldl max s
    if mx = mn then (s :: rest).map (fun _ => (1 : ℚ) / 2)
    else (s :: rest).map (fun x => (x - mn) / (mx - mn))

/-- The `final_results` list built in `retrieve` (rag.py lines 181-201) before
sorting: one entry per indexed document, with
`final_score = bm25_weight * b_score + semantic_weight * s_score * 10`. -/
def candidateResults (documents : List PyDoc) (bm : BM25Okapi)
    (semanticResults : List (PyDoc × ℚ)) (query : String)
    (bm25Weight semanticWeight : ℚ) : List RetrievalResult :=
  let bmScores := getScores bm (pyTokenize query)
  documents.enum.map (fun p =>
    let key := pyTake 50 p.2.text
    let s := (semanticScoreMap semanticResults key).getD 0
    let b := bmScores.getD p.1 0
    { document := p.2
      hybridScore := bm25Weight * b + semanticWeight * s * 10
      bm25Score := b
      semanticScore := s })

/-- Stable insertion step for the descending sort by `hybrid_score`: a new
element goes after every already-placed element whose score is ≥ its own. -/
def insertByScore (r : RetrievalResult) : List RetrievalResult → List RetrievalResult
  | [] => [r]
  | x :: xs => if x.hybridScore < r.hybridScore then r :: x :: xs else x :: insertByScore r xs

/-- `final_results.sort(key=lambda x: x['hybrid_score'], reverse=True)` —
Python's sort is stable, and stable descending order is unique, so this
insertion sort computes the same list. -/
def sortByScoreDesc (l : List RetrievalResult) : List RetrievalResult :=
  l.foldl (fun acc r => insertByScore r acc) []

/-- The diversity walk of rag.py lines 206-228: admit a result only if fewer
than 2 results with the same source have been admitted; after each admission,
stop as soon as the admitted count reaches `k`.  `seen` is the
`seen_documents` counter, `count` the number already admitted. -/
def diversityLoop (k : Nat) (seen : String → Nat) (count : Nat) :
    List RetrievalResult → List RetrievalResult
  | [] => []
  | r :: rest =>
    let src := docSource r.document
    if seen src < 2 then
      if k ≤ count + 1 then [r]
      else r :: diversityLoop k (fun s => if s = src then seen src + 1 else seen s)
        (count + 1) rest
    else diversityLoop k seen count rest

/-- `HybridRetriever.retrieve`.  `bm25` is `self.bm25` (`none` before
`index_documents` runs); `semanticResults` is the value returned by the
external FAISS search `self.vector_store.search(query, k*2)`. -/
def retrieve (documents : List PyDoc) (bm25 : Option BM25Okapi)
    (semanticResults : List (PyDoc × ℚ)) (query : String) (k : Nat)
    (bm25Weight semanticWeight : ℚ) : List RetrievalResult :=
  match bm25 with
  | none => []
  | some bm =>
    diversityLoop k (fun _ => 0) 0
      (sortByScoreDesc (candidateResults documents bm semanticResults query
        bm25Weight semanticWeight))

/-! ## DocumentProcessor chunker (`document_processor.py`) -/

/-- Fuel-driven non-overlapping left-to-right replacement, i.e. Python
`str.replace(pat, repl)` for a non-empty pattern; fuel is the input length. -/
def replaceAllAux (pat repl : List Char) : Nat → List Char → List Char
  | _, [] => []
  | 0, l => l
  | fuel + 1, c :: cs =>
    if pat.isPrefixOf (c :: cs) then
      repl ++ replaceAllAux pat repl fuel ((c :: cs).drop pat.length)
    else c :: replaceAllAux pat repl fuel cs

/-- Python `text.replace(pat, repl)` on strings. -/
def pyReplace (pat repl text : String) : String :=
  String.mk (replaceAllAux pat.data repl.data text.data.length text.data)

/-- Sentence-terminating characters of the regex `([.?!])\s+`. -/
def isSentEnd (c : Char) : Bool :=
  c == '.' || c == '?' || c == '!'

/-- Fuel-driven scan implementing `re.split(r'([.?!])\s+', text)`: the parts
alternate text / captured delimiter, each match consuming the punctuation
character and the maximal following whitespace run. -/
def reSplitAux : Nat → List Char → List Char → List String
  | 0, l, acc => [String.mk (acc.reverse ++ l)]
  | _, [], acc => [String.mk acc.reverse]
  | fuel + 1, c :: cs, acc =>
    if isSentEnd c && (match cs with | d :: _ => pyWhitespace d | [] => false) then
      let rest := cs.dropWhile pyWhitespace
      String.mk acc.reverse :: String.mk [c] :: reSplitAux fuel rest []
    else reSplitAux fuel cs (c :: acc)

/-- `re.split(r'([.?!])\s+', text)`. -/
def reSplitSentences (text : String) : List String :=
  reSplitAux text.data.length text.data []

/-- The pairing loop of `_split_into_sentences`:
`for i in range(0, len(parts)-1, 2): sentences.append((parts[i]+parts[i+1]).strip())`. -/
def pairConcat : List String → List String
  | a :: b :: rest => pyStrip (a ++ b) :: pairConcat rest
  | _ => []

/-- The trailing-part step: `if len(parts) % 2 == 1 and parts[-1]:
sentences.append(parts[-1].strip())`. -/
def lastIfOdd (parts : List String) : List String :=
  if parts.length % 2 = 1 then
    match parts.getLast? with
    | some p => if p == "" then [] else [pyStrip p]
    | none => []
  else []

/-- `DocumentProcessor._split_into_sentences`. -/
def splitIntoSentences (text : String) : List String :=
  let t :=
    pyReplace "vs." "vs" (pyReplace "Dr." "Dr" (pyReplace "Mrs." "Mrs"
      (pyReplace "Mr." "Mr" text)))
  let parts := reSplitSentences t
  (pairConcat parts ++ lastIfOdd parts).filter (fun s => !(s == ""))

/-- `" ".join(current_chunk)`. -/
def joinSpace (l : List String) : String :=
  String.intercalate " " l

/-- The hard character split of an oversized sentence
(`for i in range(0, sentence_len, chunk_size - chunk_overlap)`).  A zero step
is Python's `ValueError: range() arg 3 must not be zero`; a negative step
(overlap larger than chunk size) makes the range empty. -/
def hardSplit (chunkSize chunkOverlap : Nat) (s : List Char) : Except String (List String) :=
  if chunkSize = chunkOverlap then Except.error "range() arg 3 must not be zero"
  else if chunkSize < chunkOverlap then Except.ok []
  else
    let step := chunkSize - chunkOverlap
    Except.ok ((List.range ((s.length + step - 1) / step)).map
      (fun i => String.mk ((s.drop (i * step)).take chunkSize)))

/-- The loop state of `_create_chunks`: emitted chunks, the sentence list of
the chunk being built, and `current_length`. -/
structure ChunkState where
  chunks : List String
  current : List String
  curLen : Nat
deriving DecidableEq

/-- One iteration of the sentence loop of `_create_chunks` (lines 144-176). -/
def chunkStep (chunkSize chunkOverlap : Nat) (st : ChunkState) (sentence : String) :
    Except String ChunkState :=
  let slen := sentence.data.length
  if chunkSize < slen then
    let st1 : ChunkState :=
      if st.current.isEmpty then st else ⟨st.chunks ++ [joinSpace st.current], [], 0⟩
    match hardSplit chunkSize chunkOverlap sentence.data with
    | Except.error e => Except.error e
    | Except.ok pieces => Except.ok ⟨st1.chunks ++ pieces, st1.current, st1.curLen⟩
  else
    if chunkSize < st.curLen + slen + 1 then
      let overlapText := (st.current.getLast?).getD ""
      Except.ok
        ⟨st.chunks ++ [joinSpace st.current],
         if overlapText == "" then [sentence] else [overlapText, sentence],
         if overlapText == "" then slen else overlapText.data.length + 1 + slen⟩
    else Except.ok ⟨st.chunks, st.current ++ [sentence], st.curLen + slen + 1⟩

/-- Folding `chunkStep` over the sentence list. -/
def chunkLoop (chunkSize chunkOverlap : Nat) :
    List String → ChunkState → Except String ChunkState
  | [], st => Except.ok st
  | s :: rest, st =>
    match chunkStep chunkSize chunkOverlap st s with
    | Except.error e => Except.error e
    | Except.ok st2 => chunkLoop chunkSize chunkOverlap rest st2

/-- `DocumentProcessor._create_chunks`. -/
def createChunks (chunkSize chunkOverlap : Nat) (text : String) :
    Except String (List String) :=
  if pyStrip text == "" then Except.ok []
  else
    match chunkLoop chunkSize chunkOverlap (splitIntoSentences text) ⟨[], [], 0⟩ with
    | Except.error e => Except.error e
    | Except.ok st =>
      Except.ok (if st.current.isEmpty then st.chunks else st.chunks ++ [joinSpace st.current])

/-! ## ResponseCache (`rag.py` lines 451-535) -/

/-- A cached value: `(answer, timestamp, original_query)`. -/
structure CacheEntry where
  answer : String
  timestamp : ℚ
  origQuery : String
deriving DecidableEq

/-- The cache state: `self.cache` is a Python dict, modelled as an
insertion-ordered association list with unique keys. -/
structure ResponseCache where
  cache : List (String × CacheEntry)
  maxSize : Nat
  ttlSeconds : ℚ
deriving DecidableEq

/-- `ResponseCache._hash_query`: `md5(query.lower().strip())`.  The MD5 hex
digest is modelled by the normalized query itself (the code only ever compares
hashes for equality). -/
def hashQuery (q : String) : String :=
  pyLower (pyStrip q)

/-- `ResponseCache.get` at wall-clock time `now` (`time.time()`), returning
the answer (if any) and the possibly-pruned cache. -/
def cacheGet (c : ResponseCache) (query : String) (now : ℚ) :
    Option String × ResponseCache :=
  let h := hashQuery query
  match c.cache.find? (fun p => p.1 == h) with
  | some pe =>
    if now - pe.2.timestamp < c.ttlSeconds then (some pe.2.answer, c)
    else (none, { c with cache := c.cache.eraseP (fun p => p.1 == h) })
  | none => (none, c)

/-- `min(self.cache.items(), key=lambda x: x[1][1])`: the first entry carrying
the minimal timestamp (Python's `min` keeps the earliest of ties). -/
def findOldest : List (String × CacheEntry) → Option (String × CacheEntry)
  | [] => none
  | p :: rest =>
    some (rest.foldl (fun best q => if q.2.timestamp < best.2.timestamp then q else best) p)

/-- `ResponseCache.set` at time `now`: evict the oldest entry when at capacity
and the key is new, then write (update in place if present, append if new). -/
def cacheSet (c : ResponseCache) (query answer : String) (now : ℚ) : ResponseCache :=
  let h := hashQuery query
  let cache1 :=
    if c.maxSize ≤ c.cache.length && !(c.cache.any (fun p => p.1 == h)) then
      match findOldest c.cache with
      | some old => c.cache.eraseP (fun p => p.1 == old.1)
      | none => c.cache
    else c.cache
  let entry : CacheEntry := ⟨answer, now, query⟩
  { c with
    cache :=
      if cache1.any (fun p => p.1 == h) then
        cache1.map (fun p => if p.1 == h then (h, entry) else p)
      else cache1 ++ [(h, entry)] }

/-! ## QueryExpander (`rag.py` lines 237-317) -/

/-- `QueryExpander._should_expand`: short query (fewer than 4
whitespace-separated tokens) and non-empty session history. -/
def shouldExpand (query : String) (history : List String) : Bool :=
  decide ((pySplitWS query).length < 4) && decide (0 < history.length)

/-- `QueryExpander.expand_query`.  `llmResponse` is the outcome of the
external Groq call (`none` models the call raising).  Besides the returned
`(expanded_query, was_expanded)` pair, the embedding records whether the
external call was attempted (whether control reached the `try` block). -/
def expandQuery (query : String) (history : List String) (llmResponse : Option String) :
    (String × Bool) × Bool :=
  if shouldExpand query history then
    match llmResponse with
    | some content => ((pyStrip content, true), true)
    | none => ((query, false), true)
  else ((query, false), false)

/-! ## FAISSVectorStore dimension check (`vector_store.py` lines 62-75) -/

/-- The store state right after `self.load()` inside `__init__`: the FAISS
index is abstracted to its dimension `index.d`, plus the loaded document list
and the existence of the two persisted files. -/
structure VectorStoreState where
  index : Option Nat
  documents : List PyDoc
  indexFileExists : Bool
  docsFileExists : Bool
deriving DecidableEq

/-- Lines 66-75 of `FAISSVectorStore.__init__`: when both an index and a
model are present and the dimensions differ, drop the index and documents and
remove both persisted files. -/
def dimensionCheck (modelDim : Option Nat) (s : VectorStoreState) : VectorStoreState :=
  match s.index, modelDim with
  | some indexDim, some currentDim =>
    if currentDim ≠ indexDim then ⟨none, [], false, false⟩ else s
  | _, _ => s

/-! ## ConversationMemory (`conversation_memory.py`) -/

/-- One logged interaction. -/
structure Interaction where
  timestamp : ℚ
  userMessage : String
  botResponse : String
deriving DecidableEq

/-- The memory state: two Python dicts (session id → interaction list,
session id → profile dict), modelled as insertion-ordered association lists
with unique keys. -/
structure ConversationMemory where
  sessions : List (String × List Interaction)
  userProfiles : List (String × List (String × String))
deriving DecidableEq

/-- `ConversationMemory.delete_session`: `del` the session entry and the
profile entry when present. -/
def deleteSession (m : ConversationMemory) (sid : String) : ConversationMemory :=
  { sessions :=
      if m.sessions.any (fun p => p.1 == sid) then
        m.sessions.eraseP (fun p => p.1 == sid)
      else m.sessions,
    userProfiles :=
      if m.userProfiles.any (fun p => p.1 == sid) then
        m.userProfiles.eraseP (fun p => p.1 == sid)
      else m.userProfiles }

/-- Python slice `l[-limit:]` (note `l[-0:]` is the whole list). -/
def pyLastSlice (l : List Interaction) (limit : Nat) : List Interaction :=
  if limit = 0 then l else l.drop (l.length - limit)

/-- `ConversationMemory.get_session_history`. -/
def getSessionHistory (m : ConversationMemory) (sid : String) (limit : Nat) :
    List Interaction :=
  match m.sessions.find? (fun p => p.1 == sid) with
  | some pe => pyLastSlice pe.2 limit
  | none => []

/-- `ConversationMemory.get_user_profile`: `self.user_profiles.get(session_id, {})`. -/
def getUserProfile (m : ConversationMemory) (sid : String) : List (String × String) :=
  match m.userProfiles.find? (fun p => p.1 == sid) with
  | some pe => pe.2
  | none => []

/-! ## Derived score vectors and concrete fixtures -/

deriving instance DecidableEq for Except

/-- The per-document semantic component used in the fusion loop: for document
`d`, `semantic_score_map.get(d['text'][:50], 0.0)`.  This is the semantic
score vector the spec's normalization step would act on. -/
def semanticVector (documents : List PyDoc) (semanticResults : List (PyDoc × ℚ)) : List ℚ :=
  documents.map (fun d => (semanticScoreMap semanticResults (pyTake 50 d.text)).getD 0)

/-- Fixture document A (chunk from source `a.txt`). -/
def exDocA : PyDoc := ⟨"apple banana", some "a.txt", none⟩

/-- Fixture document B (chunk from source `b.txt`). -/
def exDocB : PyDoc := ⟨"cherry", some "b.txt", none⟩

/-- Fixture BM25 index over the tokenization of `exDocA`, `exDocB`.  Every
term of this two-document corpus has document frequency 1, so
`BM25Okapi._calc_idf` gives it IDF `log(2 - 1 + 0.5) - log(1 + 0.5) = 0`
exactly, and terms outside the corpus get `self.idf.get(q) or 0 = 0`; hence
the constant-zero IDF table is the exact table for this corpus. -/
def exBM : BM25Okapi := ⟨[["apple", "banana"], ["cherry"]], fun _ => 0⟩

/-- Fixture: a 51-character text (fifty `a`s then `x`). -/
def exLongTextX : String :=
  "aaaaaaaaaaaaaaaaaaaaaaaaaaaaaaaaaaaaaaaaaaaaaaaaaax"

/-- Fixture: a 51-character text sharing its first 50 characters with
`exLongTextX` but differing at position 50. -/
def exLongTextY : String :=
  "aaaaaaaaaaaaaaaaaaaaaaaaaaaaaaaaaaaaaaaaaaaaaaaaaay"

/-- Fixture document with text `exLongTextX`. -/
def exDocX : PyDoc := ⟨exLongTextX, some "x.txt", none⟩

/-- Fixture document with text `exLongTextY`. -/
def exDocY : PyDoc := ⟨exLongTextY, some "y.txt", none⟩

/-- Fixture BM25 index for the two long-text documents (again each term has
document frequency 1 in a 2-document corpus, so the true IDF table is
constantly 0). -/
def exBMLong : BM25Okapi := ⟨[[exLongTextX.toLower], [exLongTextY.toLower]], fun _ => 0⟩

/-- Fixture cache with two live entries and room for none
(`max_size = 2`, `ttl_seconds = 10`). -/
def exCache : ResponseCache :=
  ⟨[("a", ⟨"answer one", 3, "a"⟩), ("b", ⟨"answer two", 0, "b"⟩)], 2, 10⟩

/-- Fixture conversation memory holding two sessions and two profiles. -/
def exMemory : ConversationMemory :=
  ⟨[("s1", [⟨1, "hi", "hello"⟩]), ("s2", [⟨2, "fees?", "45k"⟩])],
   [("s1", [("wbjee_rank", "1200")]), ("s2", [("interests", "coding")])]⟩

/-! ## Helper lemmas -/

theorem mem_insertByScore {x r : RetrievalResult} :
    ∀ {l : List RetrievalResult}, x ∈ insertByScore r l → x = r ∨ x ∈ l := by
  intro l
  induction l with
  | nil => intro h; simp [insertByScore] at h; exact Or.inl h
  | cons a as ih =>
    intro h
    rw [insertByScore] at h
    by_cases hc : a.hybridScore < r.hybridScore
    · simp [hc] at h
      rcases h with h | h | h
      · exact Or.inl h
      · exact Or.inr (by simp [h])
      · exact Or.inr (by simp [h])
    · simp [hc] at h
      rcases h with h | h
      · exact Or.inr (by simp [h])
      · rcases ih h with h2 | h2
        · exact Or.inl h2
        · exact Or.inr (by simp [h2])

theorem mem_foldl_insertByScore {x : RetrievalResult} :
    ∀ (l acc : List RetrievalResult),
      x ∈ l.foldl (fun a r => insertByScore r a) acc → x ∈ acc ∨ x ∈ l := by
  intro l
  induction l with
  | nil => intro acc h; exact Or.inl h
  | cons a as ih =>
    intro acc h
    rw [List.foldl_cons] at h
    rcases ih (insertByScore a acc) h with h2 | h2
    · rcases mem_insertByScore h2 with h3 | h3
      · exact Or.inr (by simp [h3])
      · exact Or.inl h3
    · exact Or.inr (by simp [h2])

theorem mem_sortByScoreDesc {x : RetrievalResult} {l : List RetrievalResult}
    (h : x ∈ sortByScoreDesc l) : x ∈ l := by
  rcases mem_foldl_insertByScore l [] h with h2 | h2
  · simp at h2
  · exact h2

theorem mem_diversityLoop {x : RetrievalResult} {k : Nat} :
    ∀ {l : List RetrievalResult} {seen : String → Nat} {count : Nat},
      x ∈ diversityLoop k seen count l → x ∈ l := by
  intro l
  induction l with
  | nil => intro seen count h; simp [diversityLoop] at h
  | cons r rest ih =>
    intro seen count h
    rw [diversityLoop] at h
    by_cases h1 : seen (docSource r.document) < 2
    · simp only [h1, if_true] at h
      by_cases h2 : k ≤ count + 1
      · simp only [h2, if_true] at h
        simp at h
        simp [h]
      · simp only [h2, if_false] at h
        rcases List.mem_cons.mp h with h3 | h3
        · simp [h3]
        · exact List.mem_cons_of_mem _ (ih h3)
    · simp only [h1, if_false] at h
      exact List.mem_cons_of_mem _ (ih h)

theorem candidateResults_fields {documents : List PyDoc} {bm : BM25Okapi}
    {semanticResults : List (PyDoc × ℚ)} {query : String} {bw sw : ℚ}
    {r : RetrievalResult} (h : r ∈ candidateResults documents bm semanticResults query bw sw) :
    r.hybridScore = bw * r.bm25Score + sw * r.semanticScore * 10 ∧
      r.semanticScore =
        (semanticScoreMap semanticResults (pyTake 50 r.document.text)).getD 0 := by
  rw [candidateResults] at h
  simp only [List.mem_map] at h
  obtain ⟨p, _, rfl⟩ := h
  exact ⟨rfl, rfl⟩

theorem mem_retrieve {documents : List PyDoc} {bm : BM25Okapi}
    {semanticResults : List (PyDoc × ℚ)} {query : String} {k : Nat} {bw sw : ℚ}
    {r : RetrievalResult} (h : r ∈ retrieve documents (some bm) semanticResults query k bw sw) :
    r ∈ candidateResults documents bm semanticResults query bw sw := by
  rw [retrieve] at h
  exact mem_sortByScoreDesc (mem_diversityLoop h)

theorem foldl_min_le_init : ∀ (l : List ℚ) (s : ℚ), l.foldl min s ≤ s := by
  intro l
  induction l with
  | nil => intro s; simp
  | cons a as ih =>
    intro s
    calc (a :: as).foldl min s = as.foldl min (min s a) := by rw [List.foldl_cons]
    _ ≤ min s a := ih (min s a)
    _ ≤ s := min_le_left s a

theorem foldl_min_le_mem {x : ℚ} :
    ∀ {l : List ℚ} (s : ℚ), x ∈ l → l.foldl min s ≤ x := by
  intro l
  induction l with
  | nil => intro s h; simp at h
  | cons a as ih =>
    intro s h
    rw [List.foldl_cons]
    rcases List.mem_cons.mp h with h2 | h2
    · subst h2
      calc as.foldl min (min s x) ≤ min s x := foldl_min_le_init as (min s x)
      _ ≤ x := min_le_right s x
    · exact ih (min s a) h2

theorem le_foldl_max_init : ∀ (l : List ℚ) (s : ℚ), s ≤ l.foldl max s := by
  intro l
  induction l with
  | nil => intro s; simp
  | cons a as ih =>
    intro s
    calc s ≤ max s a := le_max_left s a
    _ ≤ as.foldl max (max s a) := ih (max s a)
    _ = (a :: as).foldl max s := by rw [List.foldl_cons]

theorem le_foldl_max_mem {x : ℚ} :
    ∀ {l : List ℚ} (s : ℚ), x ∈ l → x ≤ l.foldl max s := by
  intro l
  induction l with
  | nil => intro s h; simp at h
  | cons a as ih =>
    intro s h
    rw [List.foldl_cons]
    rcases List.mem_cons.mp h with h2 | h2
    · subst h2
      calc x ≤ max s x := le_max_right s x
      _ ≤ as.foldl max (max s x) := le_foldl_max_init as (max s x)
    · exact ih (max s a) h2

theorem foldl_min_all_eq {s : ℚ} :
    ∀ {l : List ℚ}, (∀ x ∈ l, x = s) → l.foldl min s = s := by
  intro l
  induction l with
  | nil => intro _; rfl
  | cons a as ih =>
    intro h
    have ha : a = s := h a (by simp)
    rw [List.foldl_cons, ha, min_self]
    exact ih (fun x hx => h x (by simp [hx]))

theorem foldl_max_all_eq {s : ℚ} :
    ∀ {l : List ℚ}, (∀ x ∈ l, x = s) → l.foldl max s = s := by
  intro l
  induction l with
  | nil => intro _; rfl
  | cons a as ih =>
    intro h
    have ha : a = s := h a (by simp)
    rw [List.foldl_cons, ha, max_self]
    exact ih (fun x hx => h x (by simp [hx]))

theorem normalizeScores_bounds :
    ∀ (scores : List ℚ), ∀ z ∈ normalizeScores scores, 0 ≤ z ∧ z ≤ 1 := by
  intro scores z hz
  match scores with
  | [] => simp [normalizeScores] at hz
  | s :: rest =>
    rw [normalizeScores] at hz
    by_cases hc : rest.foldl max s = rest.foldl min s
    · simp only [hc, if_true] at hz
      simp only [List.mem_map] at hz
      obtain ⟨x, _, rfl⟩ := hz
      norm_num
    · simp only [hc, if_false] at hz
      simp only [List.mem_map] at hz
      obtain ⟨x, hx, rfl⟩ := hz
      have hmnx : rest.foldl min s ≤ x := by
        rcases List.mem_cons.mp hx with h2 | h2
        · subst h2; exact foldl_min_le_init rest x
        · exact foldl_min_le_mem s h2
      have hxmx : x ≤ rest.foldl max s := by
        rcases List.mem_cons.mp hx with h2 | h2
        · subst h2; exact le_foldl_max_init rest x
        · exact le_foldl_max_mem s h2
      have hlt : rest.foldl min s < rest.foldl max s := by
        rcases lt_or_eq_of_le (le_trans (foldl_min_le_init rest s) (le_foldl_max_init rest s))
          with h2 | h2
        · exact h2
        · exact absurd h2.symm hc
      have hpos : 0 < rest.foldl max s - rest.foldl min s := by linarith
      constructor
      · apply div_nonneg <;> linarith
      · rw [div_le_one hpos]; linarith

theorem normalizeScores_const :
    ∀ (scores : List ℚ), (∀ x ∈ scores, ∀ y ∈ scores, x = y) →
      ∀ z ∈ normalizeScores scores, z = 1 / 2 := by
  intro scores hconst z hz
  match scores with
  | [] => simp [normalizeScores] at hz
  | s :: rest =>
    have hall : ∀ x ∈ rest, x = s := by
      intro x hx
      exact hconst x (by simp [hx]) s (by simp)
    rw [normalizeScores] at hz
    rw [foldl_min_all_eq hall, foldl_max_all_eq hall] at hz
    simp only [if_true] at hz
    simp only [List.mem_map] at hz
    obtain ⟨x, _, rfl⟩ := hz
    rfl

theorem diversityLoop_countP (src : String) {k : Nat} :
    ∀ (l : List RetrievalResult) (seen : String → Nat) (count : Nat),
      seen src ≤ 2 →
      (diversityLoop k seen count l).countP (fun r => docSource r.document == src) ≤
        2 - seen src := by
  intro l
  induction l with
  | nil => intro seen count _; simp [diversityLoop]
  | cons r rest ih =>
    intro seen count hle
    rw [diversityLoop]
    by_cases h1 : seen (docSource r.document) < 2
    · simp only [h1, if_true]
      by_cases h2 : k ≤ count + 1
      · simp only [h2, if_true]
        by_cases h3 : docSource r.document = src
        · have : seen src < 2 := h3 ▸ h1
          simp only [List.countP_cons, List.countP_nil, h3]
          simp
          omega
        · simp only [List.countP_cons, List.countP_nil]
          have : (docSource r.document == src) = false := by
            exact beq_false_of_ne h3
          simp [this]
      · simp only [h2, if_false]
        rw [List.countP_cons]
        by_cases h3 : docSource r.document = src
        · have hlt : seen src < 2 := h3 ▸ h1
          have hupd :
              (fun s => if s = docSource r.document then seen (docSource r.document) + 1
                else seen s) src = seen src + 1 := by
            show (if src = docSource r.document then seen (docSource r.document) + 1
              else seen src) = seen src + 1
            rw [if_pos h3.symm, h3]
          have ihx := ih (fun s => if s = docSource r.document then
            seen (docSource r.document) + 1 else seen s) (count + 1) (by rw [hupd]; omega)
          rw [hupd] at ihx
          have hbeq : (docSource r.document == src) = true := beq_iff_eq.mpr h3
          rw [hbeq, if_pos rfl]
          omega
        · have hupd :
              (fun s => if s = docSource r.document then seen (docSource r.document) + 1
                else seen s) src = seen src := by
            have hsymm : ¬ src = docSource r.document := fun h => h3 h.symm
            simp [hsymm]
          have ihx := ih (fun s => if s = docSource r.document then
            seen (docSource r.document) + 1 else seen s) (count + 1) (by rw [hupd]; omega)
          rw [hupd] at ihx
          have hbeq : (docSource r.document == src) = false := beq_false_of_ne h3
          rw [hbeq]
          simp only [Bool.false_eq_true, if_false]
          omega
    · simp only [h1, if_false]
      exact ih seen count hle

theorem diversityLoop_length {k : Nat} :
    ∀ (l : List RetrievalResult) (seen : String → Nat) (count : Nat),
      count < k → (diversityLoop k seen count l).length ≤ k - count := by
  intro l
  induction l with
  | nil => intro seen count h; simp [diversityLoop]
  | cons r rest ih =>
    intro seen count hck
    rw [diversityLoop]
    by_cases h1 : seen (docSource r.document) < 2
    · simp only [h1, if_true]
      by_cases h2 : k ≤ count + 1
      · simp only [h2, if_true]
        simp
        omega
      · simp only [h2, if_false]
        rw [List.length_cons]
        have ihx := ih (fun s => if s = docSource r.document then
          seen (docSource r.document) + 1 else seen s) (count + 1) (by omega)
        omega
    · simp only [h1, if_false]
      exact ih seen count hck

theorem enumFrom_map_snd {α : Type} : ∀ (n : Nat) (l : List α),
    (List.enumFrom n l).map Prod.snd = l := by
  intro n l
  induction l generalizing n with
  | nil => rfl
  | cons a as ih => simp [List.enumFrom, ih]

theorem bm25DocScore_zero_of_no_overlap {bm : BM25Okapi} {queryTokens : List String}
    {d : List String} (h : ∀ t ∈ queryTokens, d.count t = 0) :
    bm25DocScore bm queryTokens d = 0 := by
  rw [bm25DocScore]
  apply List.sum_eq_zero
  intro x hx
  simp only [List.mem_map] at hx
  obtain ⟨q, hq, rfl⟩ := hx
  rw [h q hq]
  push_cast
  rw [zero_mul, zero_div, mul_zero]

theorem find?_map_overwrite (h : String) (e : CacheEntry) :
    ∀ l : List (String × CacheEntry), l.any (fun p => p.1 == h) = true →
      (l.map (fun p => if p.1 == h then (h, e) else p)).find? (fun p => p.1 == h) =
        some (h, e) := by
  intro l
  induction l with
  | nil => intro hany; simp at hany
  | cons p ps ih =>
    intro hany
    rw [List.map_cons]
    by_cases hp : (p.1 == h) = true
    · rw [if_pos hp]
      exact List.find?_cons_of_pos _ (by simp)
    · rw [Bool.not_eq_true] at hp
      rw [if_neg (by simp [hp])]
      rw [List.find?_cons_of_neg _ (by simp [hp])]
      apply ih
      rw [List.any_cons, hp] at hany
      simpa using hany

theorem find?_append_new (h : String) (e : CacheEntry) :
    ∀ l : List (String × CacheEntry), l.any (fun p => p.1 == h) = false →
      (l ++ [(h, e)]).find? (fun p => p.1 == h) = some (h, e) := by
  intro l
  induction l with
  | nil =>
    intro _
    rw [List.nil_append]
    exact List.find?_cons_of_pos _ (by simp)
  | cons p ps ih =>
    intro hany
    rw [List.any_cons] at hany
    have hp : (p.1 == h) = false := by
      cases hq : (p.1 == h) <;> simp [hq] at hany ⊢
    have hps : ps.any (fun q => q.1 == h) = false := by
      cases hq : ps.any (fun q => q.1 == h) <;> simp [hq, hp] at hany ⊢
    rw [List.cons_append]
    rw [List.find?_cons_of_neg _ (by simp [hp])]
    exact ih hps

theorem foldl_oldest_spec :
    ∀ (l : List (String × CacheEntry)) (p : String × CacheEntry),
      (l.foldl (fun best q => if q.2.timestamp < best.2.timestamp then q else best) p = p ∨
        l.foldl (fun best q => if q.2.timestamp < best.2.timestamp then q else best) p ∈ l) ∧
      (l.foldl (fun best q => if q.2.timestamp < best.2.timestamp then q else best)
          p).2.timestamp ≤ p.2.timestamp ∧
      ∀ q ∈ l, (l.foldl (fun best q => if q.2.timestamp < best.2.timestamp then q else best)
          p).2.timestamp ≤ q.2.timestamp := by
  intro l
  induction l with
  | nil => intro p; refine ⟨Or.inl rfl, le_refl _, ?_⟩; intro q hq; simp at hq
  | cons a as ih =>
    intro p
    rw [List.foldl_cons]
    by_cases hc : a.2.timestamp < p.2.timestamp
    · rw [if_pos hc]
      obtain ⟨ihmem, ihle, ihall⟩ := ih a
      refine ⟨?_, ?_, ?_⟩
      · rcases ihmem with hm | hm
        · exact Or.inr (by simp [hm])
        · exact Or.inr (by simp [hm])
      · exact le_trans ihle (le_of_lt hc)
      · intro q hq
        rcases List.mem_cons.mp hq with h2 | h2
        · subst h2; exact ihle
        · exact ihall q h2
    · rw [if_neg hc]
      obtain ⟨ihmem, ihle, ihall⟩ := ih p
      refine ⟨?_, ?_, ?_⟩
      · rcases ihmem with hm | hm
        · exact Or.inl hm
        · exact Or.inr (by simp [hm])
      · exact ihle
      · intro q hq
        rcases List.mem_cons.mp hq with h2 | h2
        · subst h2; exact le_trans ihle (le_of_not_lt hc)
        · exact ihall q h2

theorem findOldest_spec {l : List (String × CacheEntry)} {p0 : String × CacheEntry}
    {rest : List (String × CacheEntry)} (hl : l = p0 :: rest) :
    ∃ old, findOldest l = some old ∧ old ∈ l ∧
      ∀ q ∈ l, old.2.timestamp ≤ q.2.timestamp := by
  subst hl
  obtain ⟨hmem, hle, hall⟩ := foldl_oldest_spec rest p0
  have hfo : findOldest (p0 :: rest) =
      some (rest.foldl (fun best q => if q.2.timestamp < best.2.timestamp then q else best) p0) :=
    rfl
  refine ⟨rest.foldl (fun best q => if q.2.timestamp < best.2.timestamp then q else best) p0,
    hfo, ?_, ?_⟩
  · rcases hmem with hm | hm
    · rw [hm]; simp
    · simp [hm]
  · intro q hq
    rcases List.mem_cons.mp hq with h2 | h2
    · subst h2; exact hle
    · exact hall q h2

theorem mem_of_mem_erasePKey {α : Type} {x : String × α} {pred : String × α → Bool} :
    ∀ {l : List (String × α)}, x ∈ l.eraseP pred → x ∈ l := by
  intro l
  induction l with
  | nil => intro h; simp [List.eraseP] at h
  | cons a as ih =>
    intro h
    rw [List.eraseP_cons] at h
    by_cases ha : pred a
    · rw [ha] at h
      simp only [cond_true] at h
      exact List.mem_cons_of_mem _ h
    · rw [Bool.not_eq_true] at ha
      rw [ha] at h
      simp only [cond_false] at h
      rcases List.mem_cons.mp h with h2 | h2
      · simp [h2]
      · exact List.mem_cons_of_mem _ (ih h2)

theorem find?_none_of_no_key {α : Type} {sid : String} :
    ∀ {l : List (String × α)}, (∀ q ∈ l, ¬ q.1 = sid) →
      l.find? (fun p => p.1 == sid) = none := by
  intro l
  induction l with
  | nil => intro _; rfl
  | cons a as ih =>
    intro h
    rw [List.find?]
    have ha : (a.1 == sid) = false := beq_false_of_ne (h a (by simp))
    rw [ha]
    exact ih (fun q hq => h q (by simp [hq]))

theorem find?_eraseP_self {α : Type} {sid : String} :
    ∀ {l : List (String × α)}, (l.map Prod.fst).Nodup →
      (l.eraseP (fun p => p.1 == sid)).find? (fun p => p.1 == sid) = none := by
  intro l
  induction l with
  | nil => intro _; rfl
  | cons a as ih =>
    intro hnd
    rw [List.map_cons, List.nodup_cons] at hnd
    obtain ⟨hnotin, hnd2⟩ := hnd
    rw [List.eraseP_cons]
    by_cases ha : a.1 == sid
    · rw [ha]
      simp only [cond_true]
      apply find?_none_of_no_key
      intro q hq hqs
      apply hnotin
      have : a.1 = sid := beq_iff_eq.mp ha
      rw [this, ← hqs]
      exact List.mem_map_of_mem Prod.fst hq
    · rw [Bool.not_eq_true] at ha
      rw [ha]
      simp only [cond_false]
      rw [List.find?, ha]
      exact ih hnd2

theorem find?_eraseP_ne {α : Type} {sid sid2 : String} (hne : ¬ sid2 = sid) :
    ∀ (l : List (String × α)),
      (l.eraseP (fun p => p.1 == sid)).find? (fun p => p.1 == sid2) =
        l.find? (fun p => p.1 == sid2) := by
  intro l
  induction l with
  | nil => rfl
  | cons a as ih =>
    rw [List.eraseP_cons]
    by_cases ha : a.1 == sid
    · rw [ha]
      simp only [cond_true]
      have ha2 : (a.1 == sid2) = false := by
        apply beq_false_of_ne
        intro h
        exact hne (by rw [← h, beq_iff_eq.mp ha])
      rw [List.find?, ha2]
    · rw [Bool.not_eq_true] at ha
      rw [ha]
      simp only [cond_false]
      rw [List.find?, List.find?]
      by_cases ha2 : a.1 == sid2
      · rw [ha2]
      · rw [Bool.not_eq_true] at ha2
        rw [ha2]
        exact ih

/-! ## Claim theorems -/

/-- Claim C1, corrected.  The claim as stated is false: `retrieve` never
min-max normalizes either score vector.  On the concrete two-document corpus
below (where every corpus term has document frequency 1, so the true IDF
table is constantly zero), the top result's fused score is `24/5`, while the
claimed formula `lexical_weight * norm_lexical + semantic_weight *
norm_semantic` yields `4/5` for that document. -/
theorem c1_counterexample :
    ((retrieve [exDocA, exDocB] (some exBM) [(exDocA, 4 / 5)] "zzz" 5 (2 / 5) (3 / 5)).head?.map
      (fun r => (r.document, r.hybridScore)) = some (exDocA, 24 / 5)) ∧
    (2 / 5 : ℚ) * ((normalizeScores (getScores exBM (pyTokenize "zzz"))).getD 0 0) +
      (3 / 5 : ℚ) *
        ((normalizeScores (semanticVector [exDocA, exDocB] [(exDocA, 4 / 5)])).getD 0 0) =
      4 / 5 ∧
    ¬ ((24 / 5 : ℚ) = 4 / 5) := by
  with_unfolding_all decide

/-- Claim C1, amended: `_normalize_scores` does min-max normalize to [0,1]
and maps an all-equal vector to the constant 0.5, but `retrieve` never
applies it; every returned result's fused score equals
`bm25_weight * raw_bm25 + semantic_weight * raw_semantic * 10`
(raw scores, with the semantic score boosted tenfold). -/
theorem c1_fusion_uses_raw_scores :
    (∀ (documents : List PyDoc) (bm : BM25Okapi) (semanticResults : List (PyDoc × ℚ))
        (query : String) (k : Nat) (bw sw : ℚ),
      ∀ r ∈ retrieve documents (some bm) semanticResults query k bw sw,
        r.hybridScore = bw * r.bm25Score + sw * r.semanticScore * 10) ∧
    (∀ scores : List ℚ, (∀ x ∈ scores, ∀ y ∈ scores, x = y) →
      ∀ z ∈ normalizeScores scores, z = 1 / 2) ∧
    (∀ scores : List ℚ, ∀ z ∈ normalizeScores scores, 0 ≤ z ∧ z ≤ 1) := by
  refine ⟨?_, normalizeScores_const, normalizeScores_bounds⟩
  intro documents bm semanticResults query k bw sw r hr
  exact (candidateResults_fields (mem_retrieve hr)).1

/-- Witness for C1's amended theorem at a concrete input. -/
theorem c1_fusion_witness :
    (∀ r ∈ retrieve [exDocA, exDocB] (some exBM) [(exDocA, 4 / 5)] "zzz" 5 (2 / 5) (3 / 5),
      r.hybridScore = (2 / 5 : ℚ) * r.bm25Score + (3 / 5 : ℚ) * r.semanticScore * 10) ∧
    (∀ z ∈ normalizeScores [(7 : ℚ), 7, 7], z = 1 / 2) ∧
    (∀ z ∈ normalizeScores [(4 : ℚ) / 5, 0], 0 ≤ z ∧ z ≤ 1) :=
  ⟨c1_fusion_uses_raw_scores.1 [exDocA, exDocB] exBM [(exDocA, 4 / 5)] "zzz" 5 (2 / 5) (3 / 5),
   c1_fusion_uses_raw_scores.2.1 [(7 : ℚ), 7, 7] (by with_unfolding_all decide),
   c1_fusion_uses_raw_scores.2.2 [(4 : ℚ) / 5, 0]⟩

/-- Claim C2, corrected.  A document with zero query-term overlap does get
BM25 score exactly 0, but it is not excluded from the returned list: on the
concrete corpus below, `exDocB` shares no term with the query `"apple"`, its
BM25 score is 0, and it is still among the retrieved documents. -/
theorem c2_counterexample :
    (∀ t ∈ pyTokenize "apple", (pyTokenize exDocB.text).count t = 0) ∧
    bm25DocScore exBM (pyTokenize "apple") (pyTokenize exDocB.text) = 0 ∧
    exDocB ∈ (retrieve [exDocA, exDocB] (some exBM) [] "apple" 5 (2 / 5) (3 / 5)).map
      (fun r => r.document) := by
  with_unfolding_all decide

/-- Claim C2, amended: a document containing zero query terms has BM25 score
exactly 0, but `retrieve` does not drop it — it builds one scored candidate
per indexed document (zero scores included), so a no-overlap document can
still be returned. -/
theorem c2_zero_score_still_candidate :
    (∀ (bm : BM25Okapi) (query : String) (d : List String),
      (∀ t ∈ pyTokenize query, d.count t = 0) →
      bm25DocScore bm (pyTokenize query) d = 0) ∧
    (∀ (documents : List PyDoc) (bm : BM25Okapi) (semanticResults : List (PyDoc × ℚ))
        (query : String) (bw sw : ℚ),
      (candidateResults documents bm semanticResults query bw sw).map
        (fun r => r.document) = documents) := by
  constructor
  · intro bm query d h
    exact bm25DocScore_zero_of_no_overlap h
  · intro documents bm semanticResults query bw sw
    rw [candidateResults, List.map_map]
    exact enumFrom_map_snd 0 documents

/-- Witness for C2's amended theorem at a concrete input. -/
theorem c2_witness :
    bm25DocScore exBM (pyTokenize "quantum") (pyTokenize exDocB.text) = 0 ∧
    (candidateResults [exDocA, exDocB] exBM [] "apple" (2 / 5) (3 / 5)).map
      (fun r => r.document) = [exDocA, exDocB] :=
  ⟨c2_zero_score_still_candidate.1 exBM "quantum" (pyTokenize exDocB.text)
      (by with_unfolding_all decide),
   c2_zero_score_still_candidate.2 [exDocA, exDocB] exBM [] "apple" (2 / 5) (3 / 5)⟩

/-- Claim C3, corrected.  The per-source cap holds for every `k`, but the
"stops as soon as `k` results have been admitted" clause fails at `k = 0`:
the stop check runs only after an admission, so with a non-empty candidate
list and `k = 0` the walk still admits one result instead of zero. -/
theorem c3_counterexample :
    (retrieve [exDocA, exDocB] (some exBM) [] "zzz" 0 (2 / 5) (3 / 5)).length = 1 ∧
    ¬ ((retrieve [exDocA, exDocB] (some exBM) [] "zzz" 0 (2 / 5) (3 / 5)).length ≤ 0) := by
  with_unfolding_all decide

/-- Claim C3, amended: for every corpus, query and `k`, the returned list
holds at most 2 results per source document; and for every `k ≥ 1` the walk
admits at most `k` results (for `k = 0` a single result may be admitted
because the stop check follows the admission). -/
theorem c3_diversity_caps :
    ∀ (documents : List PyDoc) (bm25 : Option BM25Okapi)
      (semanticResults : List (PyDoc × ℚ)) (query : String) (k : Nat) (bw sw : ℚ),
      (∀ src, (retrieve documents bm25 semanticResults query k bw sw).countP
        (fun r => docSource r.document == src) ≤ 2) ∧
      (1 ≤ k → (retrieve documents bm25 semanticResults query k bw sw).length ≤ k) := by
  intro documents bm25 semanticResults query k bw sw
  cases bm25 with
  | none =>
    constructor
    · intro src
      show ([] : List RetrievalResult).countP (fun r => docSource r.document == src) ≤ 2
      simp
    · intro _
      show ([] : List RetrievalResult).length ≤ k
      simp
  | some bm =>
    constructor
    · intro src
      have h := @diversityLoop_countP src k
        (sortByScoreDesc (candidateResults documents bm semanticResults query bw sw))
        (fun _ => 0) 0 (Nat.zero_le 2)
      simpa using h
    · intro hk
      have h := @diversityLoop_length k
        (sortByScoreDesc (candidateResults documents bm semanticResults query bw sw))
        (fun _ => 0) 0 hk
      simpa using h

/-- Witness for C3's amended theorem at a concrete input. -/
theorem c3_witness :
    (∀ src, (retrieve [exDocA, exDocB] (some exBM) [] "apple" 5 (2 / 5) (3 / 5)).countP
      (fun r => docSource r.document == src) ≤ 2) ∧
    (1 ≤ 5 → (retrieve [exDocA, exDocB] (some exBM) [] "apple" 5 (2 / 5) (3 / 5)).length ≤ 5) :=
  c3_diversity_caps [exDocA, exDocB] (some exBM) [] "apple" 5 (2 / 5) (3 / 5)

/-- Claim C4, code bug.  The spec/claim says the chunker never emits an empty
chunk, but `_create_chunks` misses the non-emptiness guard on the append at
line 163: when the first sentence's length equals `chunk_size` exactly (here
`"abcde"` with `chunk_size = 5`, `chunk_overlap = 2`), it appends
`" ".join([]) = ""`, returning `["", "abcde"]`.  The empty-input clause of
the claim does hold: for every parameter pair, empty input yields `[]`. -/
theorem c4_empty_chunk_bug :
    createChunks 5 2 "abcde" = Except.ok ["", "abcde"] ∧
    (∀ (chunkSize chunkOverlap : Nat), createChunks chunkSize chunkOverlap "" =
      Except.ok []) := by
  constructor
  · with_unfolding_all decide
  · intro chunkSize chunkOverlap
    rfl

theorem find?_after_write (h : String) (e : CacheEntry) (l : List (String × CacheEntry)) :
    ((if l.any (fun p => p.1 == h) then
        l.map (fun p => if p.1 == h then (h, e) else p)
      else l ++ [(h, e)]).find? (fun p => p.1 == h)) = some (h, e) := by
  by_cases hb : l.any (fun p => p.1 == h) = true
  · rw [if_pos hb]
    exact find?_map_overwrite h e l hb
  · rw [Bool.not_eq_true] at hb
    rw [if_neg (by simp [hb])]
    exact find?_append_new h e l hb

theorem cacheSet_find (c : ResponseCache) (q a : String) (now : ℚ) :
    (cacheSet c q a now).cache.find? (fun p => p.1 == hashQuery q) =
      some (hashQuery q, ⟨a, now, q⟩) :=
  find?_after_write (hashQuery q) ⟨a, now, q⟩ _

/-- Claim C5 (confirmed): `set(q, a)` immediately followed by `get(q)` yields
`a` (for a positive TTL); once strictly more than `ttl_seconds` have elapsed
since an entry was written, `get` yields none; and a `set` of a new key on a
cache holding `max_size` entries first evicts an entry carrying the oldest
timestamp (the result is the old cache with that key removed and the new
entry appended). -/
theorem c5_cache_contract :
    (∀ (c : ResponseCache) (q a : String) (now : ℚ), 0 < c.ttlSeconds →
      (cacheGet (cacheSet c q a now) q now).1 = some a) ∧
    (∀ (c : ResponseCache) (q : String) (now : ℚ) (ke : String × CacheEntry),
      c.cache.find? (fun p => p.1 == hashQuery q) = some ke →
      c.ttlSeconds < now - ke.2.timestamp →
      (cacheGet c q now).1 = none) ∧
    (∀ (c : ResponseCache) (q a : String) (now : ℚ),
      c.cache.length = c.maxSize → 0 < c.maxSize →
      c.cache.any (fun p => p.1 == hashQuery q) = false →
      ∃ old, findOldest c.cache = some old ∧ old ∈ c.cache ∧
        (∀ p ∈ c.cache, old.2.timestamp ≤ p.2.timestamp) ∧
        (cacheSet c q a now).cache =
          c.cache.eraseP (fun p => p.1 == old.1) ++ [(hashQuery q, ⟨a, now, q⟩)]) := by
  refine ⟨?_, ?_, ?_⟩
  · intro c q a now httl
    rw [cacheGet, cacheSet_find]
    have hlt : now - (⟨a, now, q⟩ : CacheEntry).timestamp < (cacheSet c q a now).ttlSeconds := by
      show now - now < c.ttlSeconds
      rw [sub_self]
      exact httl
    split
    · rename_i pe heq
      injection heq with heq2
      subst heq2
      rw [if_pos hlt]
    · rename_i heq
      simp at heq
  · intro c q now ke hfind httl
    rw [cacheGet, hfind]
    have hge : ¬ (now - ke.2.timestamp < c.ttlSeconds) := by linarith
    split
    · rename_i pe heq
      injection heq with heq2
      subst heq2
      rw [if_neg hge]
    · rename_i heq
      simp at heq
  · intro c q a now hlen hpos hnew
    obtain ⟨p0, rest, hl⟩ : ∃ p0 rest, c.cache = p0 :: rest := by
      cases hc : c.cache with
      | nil => rw [hc] at hlen; simp at hlen; omega
      | cons x xs => exact ⟨x, xs, rfl⟩
    obtain ⟨old, hfo, hmem, hall⟩ := findOldest_spec hl
    refine ⟨old, hfo, hmem, hall, ?_⟩
    rw [cacheSet]
    have hcond : (decide (c.maxSize ≤ c.cache.length) &&
        !(c.cache.any (fun p => p.1 == hashQuery q))) = true := by
      rw [hnew, hlen]
      simp
    rw [hcond]
    simp only [if_true]
    rw [hfo]
    have herase : (c.cache.eraseP (fun p => p.1 == old.1)).any
        (fun p => p.1 == hashQuery q) = false := by
      rw [List.any_eq_false]
      intro x hx
      have hxmem : x ∈ c.cache := mem_of_mem_erasePKey hx
      have := List.any_eq_false.mp hnew x hxmem
      simpa using this
    rw [herase]
    simp

/-- Witness for C5 at concrete inputs: a fresh write is read back; an entry
written at time 3 with TTL 10 is gone at time 20; on the full two-entry
cache, inserting a third key evicts the timestamp-0 entry. -/
theorem c5_witness :
    (cacheGet (cacheSet exCache "Q" "A" 20) "Q" 20).1 = some "A" ∧
    (cacheGet exCache "a" 20).1 = none ∧
    (∃ old, findOldest exCache.cache = some old ∧ old ∈ exCache.cache ∧
      (∀ p ∈ exCache.cache, old.2.timestamp ≤ p.2.timestamp) ∧
      (cacheSet exCache "c" "C" 5).cache =
        exCache.cache.eraseP (fun p => p.1 == old.1) ++ [(hashQuery "c", ⟨"C", 5, "c"⟩)]) :=
  ⟨c5_cache_contract.1 exCache "Q" "A" 20 (by with_unfolding_all decide),
   c5_cache_contract.2.1 exCache "a" 20 ("a", ⟨"answer one", 3, "a"⟩)
     (by with_unfolding_all decide) (by with_unfolding_all decide),
   c5_cache_contract.2.2 exCache "c" "C" 5 (by with_unfolding_all decide)
     (by with_unfolding_all decide) (by with_unfolding_all decide)⟩

/-- Claim C6 (confirmed): when a persisted index was loaded and its dimension
differs from the active embedding model's dimension, `__init__` performs a
full reset — index dropped, document list emptied, both persisted files
removed. -/
theorem c6_dimension_mismatch_full_reset :
    ∀ (s : VectorStoreState) (indexDim modelDim : Nat),
      s.index = some indexDim → modelDim ≠ indexDim →
      dimensionCheck (some modelDim) s = ⟨none, [], false, false⟩ := by
  intro s indexDim modelDim hidx hne
  obtain ⟨idx, docs, f1, f2⟩ := s
  have hidx2 : idx = some indexDim := hidx
  subst hidx2
  show (if modelDim ≠ indexDim then (⟨none, [], false, false⟩ : VectorStoreState)
    else ⟨some indexDim, docs, f1, f2⟩) = ⟨none, [], false, false⟩
  rw [if_pos hne]

/-- Witness for C6: loading a 384-dimensional index under a 768-dimensional
model resets the store. -/
theorem c6_witness :
    (⟨some 384, [exDocA], true, true⟩ : VectorStoreState).index = some 384 ∧
    (768 : Nat) ≠ 384 ∧
    dimensionCheck (some 768) ⟨some 384, [exDocA], true, true⟩ = ⟨none, [], false, false⟩ :=
  ⟨rfl, by decide,
   c6_dimension_mismatch_full_reset ⟨some 384, [exDocA], true, true⟩ 384 768 rfl (by decide)⟩

/-- Claim C7 (confirmed): `expand_query` reaches the external-model call
exactly when the query has fewer than 4 whitespace-separated tokens and the
session history is non-empty; and if the call fails, the original query is
returned with `was_expanded = False` (no exception escapes). -/
theorem c7_expand_query_guard :
    ∀ (query : String) (history : List String) (llmResponse : Option String),
      ((expandQuery query history llmResponse).2 = true ↔
        ((pySplitWS query).length < 4 ∧ history ≠ [])) ∧
      (llmResponse = none → (expandQuery query history llmResponse).1 = (query, false)) := by
  intro query history llm
  have hcall : (expandQuery query history llm).2 = shouldExpand query history := by
    by_cases hs : shouldExpand query history = true
    · rw [expandQuery.eq_def, if_pos hs, hs]
      cases llm <;> rfl
    · rw [expandQuery.eq_def, if_neg hs]
      rw [Bool.not_eq_true] at hs
      rw [hs]
  have hiff : shouldExpand query history = true ↔
      ((pySplitWS query).length < 4 ∧ history ≠ []) := by
    rw [shouldExpand, Bool.and_eq_true, decide_eq_true_eq, decide_eq_true_eq]
    constructor
    · rintro ⟨h1, h2⟩
      exact ⟨h1, List.ne_nil_of_length_pos h2⟩
    · rintro ⟨h1, h2⟩
      exact ⟨h1, List.length_pos.mpr h2⟩
  constructor
  · rw [hcall]
    exact hiff
  · intro hnone
    subst hnone
    by_cases hs : shouldExpand query history = true
    · rw [expandQuery.eq_def, if_pos hs]
    · rw [expandQuery.eq_def, if_neg hs]

/-- Witness for C7: a one-token query with history attempts expansion, and a
failed call falls back to the original query. -/
theorem c7_witness :
    (((expandQuery "fees" ["what are the branches"] none).2 = true ↔
      ((pySplitWS "fees").length < 4 ∧ (["what are the branches"] : List String) ≠ [])) ∧
    ((none : Option String) = none →
      (expandQuery "fees" ["what are the branches"] none).1 = ("fees", false))) :=
  c7_expand_query_guard "fees" ["what are the branches"] none

/-- Claim C8 (confirmed): before any documents are indexed (`self.bm25` is
`None`), `retrieve` returns the empty list for every query — no exception. -/
theorem c8_retrieve_empty_without_index :
    ∀ (documents : List PyDoc) (semanticResults : List (PyDoc × ℚ)) (query : String)
      (k : Nat) (bw sw : ℚ),
      retrieve documents none semanticResults query k bw sw = [] := by
  intro documents semanticResults query k bw sw
  rfl

/-- Claim C9 (confirmed): the semantic score attached to a result is the map
lookup of the first 50 characters of its chunk text, so any two returned
results whose texts agree on those 50 characters carry the same semantic
score. -/
theorem c9_semantic_score_prefix_only :
    ∀ (documents : List PyDoc) (bm : BM25Okapi) (semanticResults : List (PyDoc × ℚ))
      (query : String) (k : Nat) (bw sw : ℚ) (r1 r2 : RetrievalResult),
      r1 ∈ retrieve documents (some bm) semanticResults query k bw sw →
      r2 ∈ retrieve documents (some bm) semanticResults query k bw sw →
      pyTake 50 r1.document.text = pyTake 50 r2.document.text →
      r1.semanticScore = r2.semanticScore := by
  intro documents bm semanticResults query k bw sw r1 r2 h1 h2 hpre
  have f1 := (candidateResults_fields (mem_retrieve h1)).2
  have f2 := (candidateResults_fields (mem_retrieve h2)).2
  rw [f1, f2, hpre]

set_option maxRecDepth 8000 in
/-- Witness for C9: two 51-character chunks sharing their first 50 characters
(only one of which appears in the FAISS result list) both receive semantic
score 1/2. -/
theorem c9_witness :
    (⟨exDocX, 3, 0, 1 / 2⟩ : RetrievalResult) ∈
      retrieve [exDocX, exDocY] (some exBMLong) [(exDocX, 1 / 2)] "zzz" 5 (2 / 5) (3 / 5) ∧
    (⟨exDocY, 3, 0, 1 / 2⟩ : RetrievalResult) ∈
      retrieve [exDocX, exDocY] (some exBMLong) [(exDocX, 1 / 2)] "zzz" 5 (2 / 5) (3 / 5) ∧
    pyTake 50 (⟨exDocX, 3, 0, 1 / 2⟩ : RetrievalResult).document.text =
      pyTake 50 (⟨exDocY, 3, 0, 1 / 2⟩ : RetrievalResult).document.text ∧
    (⟨exDocX, 3, 0, 1 / 2⟩ : RetrievalResult).semanticScore =
      (⟨exDocY, 3, 0, 1 / 2⟩ : RetrievalResult).semanticScore :=
  ⟨by with_unfolding_all decide, by with_unfolding_all decide, by with_unfolding_all decide,
   c9_semantic_score_prefix_only [exDocX, exDocY] exBMLong [(exDocX, 1 / 2)] "zzz" 5
     (2 / 5) (3 / 5) ⟨exDocX, 3, 0, 1 / 2⟩ ⟨exDocY, 3, 0, 1 / 2⟩
     (by with_unfolding_all decide) (by with_unfolding_all decide)
     (by with_unfolding_all decide)⟩

/-- Claim C10 (confirmed): `delete_session` removes both the interaction log
and the user profile of the given session (afterwards the history reads back
empty and the profile reads back as the empty map), and every other session's
history and profile are untouched.  The `Nodup` hypotheses state the Python
dict invariant of unique keys. -/
theorem c10_delete_session_frame :
    ∀ (m : ConversationMemory) (sid : String) (limit : Nat),
      (m.sessions.map Prod.fst).Nodup →
      (m.userProfiles.map Prod.fst).Nodup →
      getSessionHistory (deleteSession m sid) sid limit = [] ∧
      getUserProfile (deleteSession m sid) sid = [] ∧
      (∀ sid2, sid2 ≠ sid →
        getSessionHistory (deleteSession m sid) sid2 limit = getSessionHistory m sid2 limit ∧
        getUserProfile (deleteSession m sid) sid2 = getUserProfile m sid2) := by
  intro m sid limit hnd1 hnd2
  have hsessNone : (deleteSession m sid).sessions.find? (fun p => p.1 == sid) = none := by
    show (if m.sessions.any (fun p => p.1 == sid) then
        m.sessions.eraseP (fun p => p.1 == sid)
      else m.sessions).find? (fun p => p.1 == sid) = none
    by_cases hany : m.sessions.any (fun p => p.1 == sid) = true
    · rw [if_pos hany]
      exact find?_eraseP_self hnd1
    · rw [if_neg hany]
      apply find?_none_of_no_key
      intro q hq hqs
      exact hany (List.any_eq_true.mpr ⟨q, hq, by simp [hqs]⟩)
  have hprofNone : (deleteSession m sid).userProfiles.find? (fun p => p.1 == sid) = none := by
    show (if m.userProfiles.any (fun p => p.1 == sid) then
        m.userProfiles.eraseP (fun p => p.1 == sid)
      else m.userProfiles).find? (fun p => p.1 == sid) = none
    by_cases hany : m.userProfiles.any (fun p => p.1 == sid) = true
    · rw [if_pos hany]
      exact find?_eraseP_self hnd2
    · rw [if_neg hany]
      apply find?_none_of_no_key
      intro q hq hqs
      exact hany (List.any_eq_true.mpr ⟨q, hq, by simp [hqs]⟩)
  refine ⟨?_, ?_, ?_⟩
  · rw [getSessionHistory, hsessNone]
  · rw [getUserProfile, hprofNone]
  · intro sid2 hne
    have hsessSame : (deleteSession m sid).sessions.find? (fun p => p.1 == sid2) =
        m.sessions.find? (fun p => p.1 == sid2) := by
      show (if m.sessions.any (fun p => p.1 == sid) then
          m.sessions.eraseP (fun p => p.1 == sid)
        else m.sessions).find? (fun p => p.1 == sid2) =
        m.sessions.find? (fun p => p.1 == sid2)
      by_cases hany : m.sessions.any (fun p => p.1 == sid) = true
      · rw [if_pos hany]
        exact find?_eraseP_ne hne m.sessions
      · rw [if_neg hany]
    have hprofSame : (deleteSession m sid).userProfiles.find? (fun p => p.1 == sid2) =
        m.userProfiles.find? (fun p => p.1 == sid2) := by
      show (if m.userProfiles.any (fun p => p.1 == sid) then
          m.userProfiles.eraseP (fun p => p.1 == sid)
        else m.userProfiles).find? (fun p => p.1 == sid2) =
        m.userProfiles.find? (fun p => p.1 == sid2)
      by_cases hany : m.userProfiles.any (fun p => p.1 == sid) = true
      · rw [if_pos hany]
        exact find?_eraseP_ne hne m.userProfiles
      · rw [if_neg hany]
    constructor
    · rw [getSessionHistory, getSessionHistory, hsessSame]
    · rw [getUserProfile, getUserProfile, hprofSame]

/-- Witness for C10: deleting session `s1` of the two-session fixture clears
its history and profile while session `s2` is untouched. -/
theorem c10_witness :
    getSessionHistory (deleteSession exMemory "s1") "s1" 5 = [] ∧
    getUserProfile (deleteSession exMemory "s1") "s1" = [] ∧
    (∀ sid2, sid2 ≠ "s1" →
      getSessionHistory (deleteSession exMemory "s1") sid2 5 =
        getSessionHistory exMemory sid2 5 ∧
      getUserProfile (deleteSession exMemory "s1") sid2 = getUserProfile exMemory sid2) :=
  c10_delete_session_frame exMemory "s1" 5 (by decide) (by decide)
